import Mathlib

/-!
Verification of the flake-editing core of `nix-shell-gen`.

This file shallowly embeds the structural editor in `src/flake_editor.rs`
(`add_flake_input`, `find_node`), the flake-input loop of `handle_add` in
`src/commands.rs`, and `parse_flake_input` from `src/main.rs`.

Modelling choices:
- Source text is `List Char`; offsets are UTF-8 byte counts (`utf8Len`),
  exactly as Rust `String` byte offsets.
- The external lossless parser (the `rnix`/`rowan` library) is not
  repository code; its trees are embedded as `SyntaxElem` values whose
  token concatenation is the source text (the lossless-tree invariant).
  Node byte ranges, which `rowan` stores in each node, are recovered here
  by threading the absolute start offset through every traversal.
- `Rust String::insert_str`, which panics off a char boundary or past the
  end, is embedded as the `Option`-valued `insertStrAt`.
-/

set_option maxRecDepth 100000

namespace NixShellGen

/-- Grammatical kind tag of a syntax node, following the `rnix` AST as it
is used by `flake_editor.rs`: `attrpathValue` is a binding
(`rnix::ast::AttrpathValue`), `attrSet` an attribute-set literal,
`attrpath` a dotted name path, `inheritE` an `inherit` entry (the other
`rnix::ast::Entry` variant), `expr t` any other expression kind with tag
`t`, and `other t` any remaining non-expression kind. -/
inductive NodeKind where
  | attrpathValue
  | attrSet
  | attrpath
  | inheritE
  | expr (tag : Nat)
  | other (tag : Nat)
deriving Repr

/-- A lossless syntax element: a terminal token carrying its literal text,
or a node with a kind tag and ordered children (nodes or tokens).  The
concatenated text of all leaf tokens in document order is the source. -/
inductive SyntaxElem where
  | token (text : List Char)
  | node (kind : NodeKind) (children : List SyntaxElem)
deriving Repr

mutual

/-- Source text of an element (`rowan` node/token `text()`). -/
def elemText : SyntaxElem → List Char
  | .token t => t
  | .node _ cs => textConcat cs

/-- Concatenated source text of a list of sibling elements. -/
def textConcat : List SyntaxElem → List Char
  | [] => []
  | e :: es => elemText e ++ textConcat es

end

/-- UTF-8 byte length of a character list, matching Rust `str::len`. -/
def utf8Len : List Char → Nat
  | [] => 0
  | c :: l => c.utf8Size + utf8Len l

/-- Rust `str::trim`: drop whitespace from both ends. -/
def trimChars (l : List Char) : List Char :=
  ((l.dropWhile Char.isWhitespace).reverse.dropWhile Char.isWhitespace).reverse

/-- Rust `String::insert_str self n t`: splice `t` at byte offset `n`.
Returns `none` exactly when Rust would panic: `n` past the end of the
string or not on a UTF-8 character boundary. -/
def insertStrAt (s : List Char) (n : Nat) (t : List Char) : Option (List Char) :=
  if n = 0 then
    some (t ++ s)
  else
    match s with
    | [] => none
    | c :: s' =>
      if c.utf8Size ≤ n then
        (insertStrAt s' (n - c.utf8Size) t).map (fun r => c :: r)
      else
        none

mutual

/-- Embedding of `find_node` (src/flake_editor.rs:88-98): walk the tree in
preorder — apply `f` to the node itself, then to the children left to
right — and return the first `some` result.  `rowan`'s `preorder()` visits
nodes only, so tokens are skipped.  The predicate also receives the node's
absolute byte offset, which a real `rowan` node carries in its range. -/
def findNodeOff {T : Type} (f : Nat → SyntaxElem → Option T) :
    SyntaxElem → Nat → Option T
  | .token _, _ => none
  | .node k cs, off =>
    match f off (.node k cs) with
    | some v => some v
    | none => findNodeOffList f cs off

/-- Preorder search over a sibling list, accumulating byte offsets. -/
def findNodeOffList {T : Type} (f : Nat → SyntaxElem → Option T) :
    List SyntaxElem → Nat → Option T
  | [], _ => none
  | e :: es, off =>
    match findNodeOff f e off with
    | some v => some v
    | none => findNodeOffList f es (off + utf8Len (elemText e))

end

mutual

/-- The preorder node list with absolute byte offsets: the node itself
first, then the preorder lists of the children left to right. -/
def preorderOff : SyntaxElem → Nat → List (Nat × SyntaxElem)
  | .token _, _ => []
  | .node k cs, off => (off, .node k cs) :: preorderOffList cs off

/-- Preorder node lists of a sibling list, offsets accumulated. -/
def preorderOffList : List SyntaxElem → Nat → List (Nat × SyntaxElem)
  | [], _ => []
  | e :: es, off => preorderOff e off ++ preorderOffList es (off + utf8Len (elemText e))

end

/-- Embedding of `rnix::ast::Expr::cast`, which succeeds on expression nodes: attribute sets
and the other expression kinds.  Bindings, attrpaths, inherits and
non-expression nodes are not expressions, and tokens are not nodes. -/
def isExprNode : SyntaxElem → Bool
  | .node .attrSet _ => true
  | .node (.expr _) _ => true
  | _ => false

/-- Embedding of `AttrpathValue::attrpath()`: the first child node of kind `attrpath`. -/
def attrpathChild (cs : List SyntaxElem) : Option SyntaxElem :=
  cs.find? fun e =>
    match e with
    | .node .attrpath _ => true
    | _ => false

/-- Embedding of `rnix::ast::Entry::cast`: an entry of an attribute set is either an
`AttrpathValue` binding or an `Inherit`. -/
def isEntryNode : SyntaxElem → Bool
  | .node .attrpathValue _ => true
  | .node .inheritE _ => true
  | _ => false

/-- One arm of the duplicate scan (src/flake_editor.rs:44-49): an entry
matches when it is an `AttrpathValue` whose attrpath text, trimmed, equals
`key`; an `Inherit` entry never matches (the `_ => false` arm). -/
def entryIsDup (key : String) (e : SyntaxElem) : Bool :=
  match e with
  | .node .attrpathValue cs =>
    match attrpathChild cs with
    | some p => trimChars (elemText p) == key.data
    | none => false
  | _ => false

/-- The duplicate check (src/flake_editor.rs:44-49): scan the direct
entries of the located attribute set for a binding whose attrpath text,
trimmed, equals `key`. -/
def hasDup (cs : List SyntaxElem) (key : String) : Bool :=
  (cs.filter isEntryNode).any (entryIsDup key)

/-- Embedding of `AttrpathValue::value()`: the first direct child node castable to
`Expr`, paired with its absolute byte offset (offsets accumulate over all
earlier children, tokens included). -/
def firstExprChildOff : List SyntaxElem → Nat → Option (Nat × SyntaxElem)
  | [], _ => none
  | e :: es, off =>
    if isExprNode e then some (off, e)
    else firstExprChildOff es (off + utf8Len (elemText e))

/-- The `token.text() == "\x7d"` test of the closing-brace scan. -/
def isCloseBraceTok : SyntaxElem → Bool
  | .token t => t == ['}']
  | _ => false

/-- The closing-brace scan (src/flake_editor.rs:57-63):
`children_with_tokens` filtered to tokens, first token whose text is the
closing brace; the result is that token's absolute start byte offset
(`text_range().start()`). -/
def findBraceOff : List SyntaxElem → Nat → Option Nat
  | [], _ => none
  | e :: es, off =>
    if isCloseBraceTok e then some off
    else findBraceOff es (off + utf8Len (elemText e))

/-- The closure passed to `find_node` (src/flake_editor.rs:24-35): cast to
`AttrpathValue`; require `attrpath()` to exist (`?`) and its text, trimmed,
to equal `"inputs"`; take `value()` and cast it to `AttrSet`.  On success
the result is the attribute-set value's absolute byte offset together with
its children (all the later steps use exactly these two pieces). -/
def inputsPred (off : Nat) (e : SyntaxElem) : Option (Nat × List SyntaxElem) :=
  match e with
  | .node .attrpathValue cs =>
    match attrpathChild cs with
    | none => none
    | some p =>
      if trimChars (elemText p) == "inputs".data then
        match firstExprChildOff cs off with
        | some (voff, .node .attrSet vcs) => some (voff, vcs)
        | _ => none
      else none
  | _ => none

/-- Embedding of `std::io::ErrorKind` as used by the editor: `NotFound` for both
structural failures, any other kind for propagated read errors. -/
inductive ErrKind where
  | notFound
  | otherKind (tag : Nat)
deriving Repr, DecidableEq

/-- The value `add_flake_input` gives back to its caller: `Ok(())`, a
typed `io::Error` (kind and message), or a panic (`String::insert_str`
off a char boundary would panic, which never returns to the caller). -/
inductive RustRet where
  | ok
  | err (kind : ErrKind) (msg : String)
  | panicked
deriving Repr, DecidableEq

/-- Observable outcome of one `add_flake_input` call: the returned value
and the file write, `some new_content` when `fs::write` ran, `none`
otherwise.  The write is the only mutation of the flake file. -/
structure EditResult where
  ret : RustRet
  written : Option (List Char)
deriving Repr, DecidableEq

def inputsNotFoundMsg : String := "Could not find `inputs` set in flake.nix"

def closingBraceNotFoundMsg : String := "Could not find closing brace"

/-- The inserted text (src/flake_editor.rs:67): the fixed template
newline, four spaces, `key`, `.url = "`, `url`, `";`, newline, two
spaces. -/
def newInputText (key url : String) : List Char :=
  "\n    ".data ++ key.data ++ ".url = \"".data ++ url.data ++ "\";\n  ".data

/-- Embedding of `add_flake_input` (src/flake_editor.rs:19-74).  `input`
is the file read composed with the external parse: a read error is
propagated verbatim (`?` on `fs::read_to_string`), otherwise the lossless
tree of the on-disk content, whose text is the content itself.  The steps
are exactly those of the source: locate the `inputs` attribute set with
`find_node`, return the duplicate no-op if `hasDup`, find the closing
brace among the set's direct child tokens, and splice the template at the
brace's start byte offset, writing the result back. -/
def addFlakeInput (input : Except (ErrKind × String) SyntaxElem)
    (key url : String) : EditResult :=
  match input with
  | .error e => ⟨.err e.1 e.2, none⟩
  | .ok root =>
    match findNodeOff inputsPred root 0 with
    | none => ⟨.err .notFound inputsNotFoundMsg, none⟩
    | some (off, cs) =>
      if hasDup cs key then ⟨.ok, none⟩
      else
        match findBraceOff cs off with
        | none => ⟨.err .notFound closingBraceNotFoundMsg, none⟩
        | some pos =>
          match insertStrAt (elemText root) pos (newInputText key url) with
          | some nc => ⟨.ok, some nc⟩
          | none => ⟨.panicked, none⟩

/-- Embedding of `parse_flake_input` (src/main.rs:131-141): the key is the
last `/`-separated piece of the URL, cut at the first `~`. -/
def parseFlakeInput (url : String) : String × String :=
  ((((url.splitOn "/").getLastD url).splitOn "~").headD url, url)

/-- One per-item report printed by the `handle_add` input loop: the
success line, or the failure line with the error it shows. -/
inductive ItemReport where
  | success (key : String)
  | failure (key : String) (kind : ErrKind) (msg : String)
  | panicStop
deriving Repr, DecidableEq

/-- The flake-input loop of `handle_add` (src/commands.rs:101-122).  The
world is the current flake-file state as the next read-plus-parse will see
it (or a read error); `reparse` stands for the external lossless parser
applied to freshly written text.  Each URL is split by
`parse_flake_input`, the edit is attempted, its per-item report recorded,
and the loop continues with the remaining URLs whatever the outcome — a
panic, which in Rust would unwind past the loop, is the only stop. -/
def handleAddInputs (reparse : List Char → SyntaxElem) :
    List String → Except (ErrKind × String) SyntaxElem →
    List ItemReport × Except (ErrKind × String) SyntaxElem
  | [], w => ([], w)
  | url :: us, w =>
    let kv := parseFlakeInput url
    let r := addFlakeInput w kv.1 kv.2
    match r.ret with
    | .panicked => ([.panicStop], w)
    | .ok =>
      let w' := match r.written with
        | some nc => Except.ok (reparse nc)
        | none => w
      let rest := handleAddInputs reparse us w'
      (.success kv.1 :: rest.1, rest.2)
    | .err k m =>
      let w' := match r.written with
        | some nc => Except.ok (reparse nc)
        | none => w
      let rest := handleAddInputs reparse us w'
      (.failure kv.1 k m :: rest.1, rest.2)

/-- Modelled from the spec (section 4.4), for comparison with the code's
template: the claimed insertion text is a newline, indentation, the name,
`.url = "<value>";`, a newline, and *the original indentation the closing
brace had*. -/
def specInsertText (key url braceIndent : String) : List Char :=
  "\n    ".data ++ key.data ++ ".url = \"".data ++ url.data ++ "\";\n".data
    ++ braceIndent.data

/-! ### Concrete trees

The scenario of spec section 8, plus the small trees used in the
counterexamples, written as the parses `rnix` produces: whitespace is
ordinary sibling tokens, a binding node spans attrpath, `=`, value and
`;`, and an attribute set's braces are its direct child tokens. -/

/-- Shorthand: a token with the given literal text. -/
def tk (s : String) : SyntaxElem := .token s.data

/-- The opening-brace token. -/
def openB : SyntaxElem := .token ['{']

/-- The closing-brace token. -/
def closeB : SyntaxElem := .token ['}']

/-- The binding `nixpkgs.url = "x";` of the scenario source. -/
def bindingNixpkgs : SyntaxElem :=
  .node .attrpathValue
    [.node .attrpath [tk "nixpkgs", tk ".", tk "url"],
     tk " ", tk "=", tk " ", .node (.expr 0) [tk "\"x\""], tk ";"]

/-- Children of the scenario's `inputs` set that precede its closing
brace. -/
def csaT0 : List SyntaxElem := [openB, tk " ", bindingNixpkgs, tk " "]

/-- Children of the scenario's `inputs` set. -/
def innerT0 : List SyntaxElem := csaT0 ++ [closeB]

/-- The scenario binding `inputs = ... ;`. -/
def bindingInputsT0 : SyntaxElem :=
  .node .attrpathValue
    [.node .attrpath [tk "inputs"], tk " ", tk "=", tk " ",
     .node .attrSet innerT0, tk ";"]

/-- Parse of the scenario source of spec section 8. -/
def t0 : SyntaxElem :=
  .node (.other 0) [.node .attrSet [openB, tk " ", bindingInputsT0, tk " ", closeB]]

def fuKey : String := "flake-utils"

def fuUrl : String := "github:numtide/flake-utils"

/-- The binding the first scenario edit inserts. -/
def bindingFlakeUtils : SyntaxElem :=
  .node .attrpathValue
    [.node .attrpath [tk "flake-utils", tk ".", tk "url"],
     tk " ", tk "=", tk " ",
     .node (.expr 0) [tk "\"github:numtide/flake-utils\""], tk ";"]

/-- Children of the `inputs` set after the first scenario edit. -/
def innerT1 : List SyntaxElem :=
  [openB, tk " ", bindingNixpkgs, tk " ", tk "\n    ", bindingFlakeUtils,
   tk "\n  ", closeB]

/-- The binding `inputs = ... ;` after the first scenario edit. -/
def bindingInputsT1 : SyntaxElem :=
  .node .attrpathValue
    [.node .attrpath [tk "inputs"], tk " ", tk "=", tk " ",
     .node .attrSet innerT1, tk ";"]

/-- Parse of the flake file after the first scenario edit. -/
def t1 : SyntaxElem :=
  .node (.other 0) [.node .attrSet [openB, tk " ", bindingInputsT1, tk " ", closeB]]

/-- A flake whose `inputs` set already binds the bare name `foo`. -/
def tDup : SyntaxElem :=
  .node (.other 0)
    [.node .attrpathValue
      [.node .attrpath [tk "inputs"], tk "=",
       .node .attrSet
         [openB,
          .node .attrpathValue
            [.node .attrpath [tk "foo"], tk "=", .node (.expr 0) [tk "1"], tk ";"],
          closeB],
       tk ";"]]

/-- A flake whose `inputs` set is empty and indented with a tab before its
closing brace. -/
def tTab : SyntaxElem :=
  .node (.other 0)
    [.node .attrpathValue
      [.node .attrpath [tk "inputs"], tk "=",
       .node .attrSet [openB, tk "\n\t", closeB], tk ";"]]

/-- A source with no `inputs` binding at all. -/
def tNoInputs : SyntaxElem := .node (.other 0) [tk "x"]

/-- A flake whose `inputs` set has lost its closing brace. -/
def tNoBrace : SyntaxElem :=
  .node (.other 0)
    [.node .attrpathValue
      [.node .attrpath [tk "inputs"], tk "=", .node .attrSet [openB], tk ";"]]

/-! ### Basic lemmas on text, byte lengths and the splice -/

theorem utf8Len_append (a b : List Char) :
    utf8Len (a ++ b) = utf8Len a + utf8Len b := by
  induction a with
  | nil => simp [utf8Len]
  | cons c a ih => simp [utf8Len, ih]; omega

theorem textConcat_append (a b : List SyntaxElem) :
    textConcat (a ++ b) = textConcat a ++ textConcat b := by
  induction a with
  | nil => simp [textConcat]
  | cons e a ih => simp [textConcat, ih]

theorem elemText_node (k : NodeKind) (cs : List SyntaxElem) :
    elemText (.node k cs) = textConcat cs := by
  rw [elemText]

/-- Splicing at a byte offset that is the length of a prefix of the
content succeeds and splits the content exactly there. -/
theorem insertStrAt_boundary (t : List Char) (pre post : List Char) :
    insertStrAt (pre ++ post) (utf8Len pre) t = some (pre ++ (t ++ post)) := by
  induction pre with
  | nil => rw [insertStrAt.eq_def]; simp [utf8Len]
  | cons c pre ih =>
    have hpos : 0 < c.utf8Size := Char.utf8Size_pos c
    have hne : utf8Len (c :: pre) ≠ 0 := by simp [utf8Len]; omega
    rw [List.cons_append, insertStrAt.eq_def, if_neg hne]
    have hle : c.utf8Size ≤ utf8Len (c :: pre) := by simp [utf8Len]
    have hsub : utf8Len (c :: pre) - c.utf8Size = utf8Len pre := by
      simp [utf8Len]
    simp [hle, hsub, ih]

/-! ### Locating a node fixes a byte-offset split of the source -/

mutual

/-- When the preorder search fires, the predicate was applied to a node of
the tree at the absolute byte offset of that node's text within the
tree's text. -/
theorem findNodeOff_decomp {T : Type} (f : Nat → SyntaxElem → Option T) :
    ∀ (e : SyntaxElem) (off : Nat) (v : T), findNodeOff f e off = some v →
      ∃ o n pre post, f o n = some v ∧ elemText e = pre ++ (elemText n ++ post) ∧
        o = off + utf8Len pre
  | .token t, off, v, h => by
    rw [findNodeOff] at h
    exact absurd h (by simp)
  | .node k cs, off, v, h => by
    rw [findNodeOff] at h
    cases hf : f off (.node k cs) with
    | some w =>
      rw [hf] at h
      cases h
      exact ⟨off, .node k cs, [], [], hf, by simp, by simp [utf8Len]⟩
    | none =>
      rw [hf] at h
      obtain ⟨o, n, pre, post, h1, h2, h3⟩ := findNodeOffList_decomp f cs off v h
      exact ⟨o, n, pre, post, h1, by rw [elemText_node]; exact h2, h3⟩

theorem findNodeOffList_decomp {T : Type} (f : Nat → SyntaxElem → Option T) :
    ∀ (es : List SyntaxElem) (off : Nat) (v : T), findNodeOffList f es off = some v →
      ∃ o n pre post, f o n = some v ∧ textConcat es = pre ++ (elemText n ++ post) ∧
        o = off + utf8Len pre
  | [], off, v, h => by
    rw [findNodeOffList] at h
    exact absurd h (by simp)
  | e :: es, off, v, h => by
    rw [findNodeOffList] at h
    cases he : findNodeOff f e off with
    | some w =>
      rw [he] at h
      cases h
      obtain ⟨o, n, pre, post, h1, h2, h3⟩ := findNodeOff_decomp f e off v he
      refine ⟨o, n, pre, post ++ textConcat es, h1, ?_, h3⟩
      rw [textConcat, h2]
      simp
    | none =>
      rw [he] at h
      obtain ⟨o, n, pre, post, h1, h2, h3⟩ :=
        findNodeOffList_decomp f es (off + utf8Len (elemText e)) v h
      refine ⟨o, n, elemText e ++ pre, post, h1, ?_, ?_⟩
      · rw [textConcat, h2]
        simp
      · rw [h3, utf8Len_append]
        omega

end

/-- The first expression child found by `value()` splits the sibling
list, and its reported offset is the byte length of the earlier
siblings. -/
theorem firstExprChildOff_decomp :
    ∀ (cs : List SyntaxElem) (off voff : Nat) (v : SyntaxElem),
      firstExprChildOff cs off = some (voff, v) →
      ∃ ca cb, cs = ca ++ v :: cb ∧ voff = off + utf8Len (textConcat ca) := by
  intro cs
  induction cs with
  | nil => intro off voff v h; rw [firstExprChildOff] at h; exact absurd h (by simp)
  | cons e es ih =>
    intro off voff v h
    rw [firstExprChildOff] at h
    by_cases hex : isExprNode e
    · rw [if_pos hex] at h
      cases h
      exact ⟨[], es, rfl, by simp [textConcat, utf8Len]⟩
    · rw [if_neg hex] at h
      obtain ⟨ca, cb, h1, h2⟩ := ih (off + utf8Len (elemText e)) voff v h
      refine ⟨e :: ca, cb, by rw [h1, List.cons_append], ?_⟩
      rw [h2, textConcat, utf8Len_append]
      omega

/-- When the locator's closure fires on a node, the returned attribute
set's text is a sub-span of that node's text starting at the returned
absolute offset. -/
theorem inputsPred_decomp (o voff : Nat) (n : SyntaxElem) (vcs : List SyntaxElem)
    (h : inputsPred o n = some (voff, vcs)) :
    ∃ pre2 post2, elemText n = pre2 ++ (textConcat vcs ++ post2) ∧
      voff = o + utf8Len pre2 := by
  cases n with
  | token t => simp [inputsPred] at h
  | node k cs =>
    cases k with
    | attrpathValue =>
      cases hap : attrpathChild cs with
      | none => simp [inputsPred, hap] at h
      | some p =>
        by_cases htr : (trimChars (elemText p) == "inputs".data) = true
        · cases hfe : firstExprChildOff cs o with
          | none => simp [inputsPred, hap, htr, hfe] at h
          | some pv =>
            obtain ⟨voff', v⟩ := pv
            cases v with
            | token t => simp [inputsPred, hap, htr, hfe] at h
            | node vk wcs =>
              cases vk with
              | attrSet =>
                simp [inputsPred, hap, htr, hfe] at h
                obtain ⟨h5, h6⟩ := h
                obtain ⟨ca, cb, h1, h2⟩ := firstExprChildOff_decomp cs o voff' _ hfe
                refine ⟨textConcat ca, textConcat cb, ?_, by rw [← h5]; exact h2⟩
                rw [elemText_node, h1, textConcat_append, textConcat, elemText_node, h6]
              | attrpathValue => simp [inputsPred, hap, htr, hfe] at h
              | attrpath => simp [inputsPred, hap, htr, hfe] at h
              | inheritE => simp [inputsPred, hap, htr, hfe] at h
              | expr tag => simp [inputsPred, hap, htr, hfe] at h
              | other tag => simp [inputsPred, hap, htr, hfe] at h
        · simp [inputsPred, hap, htr] at h
    | attrSet => simp [inputsPred] at h
    | attrpath => simp [inputsPred] at h
    | inheritE => simp [inputsPred] at h
    | expr tag => simp [inputsPred] at h
    | other tag => simp [inputsPred] at h

theorem isCloseBraceTok_eq {e : SyntaxElem} (h : isCloseBraceTok e = true) :
    e = .token ['}'] := by
  cases e with
  | token t =>
    rw [isCloseBraceTok] at h
    rw [beq_iff_eq] at h
    rw [h]
  | node k cs => simp [isCloseBraceTok] at h

/-- The closing-brace scan finds the first direct child token whose text
is the closing brace, and reports its absolute start offset: the start of
the sibling list plus the byte length of everything before it. -/
theorem findBraceOff_decomp :
    ∀ (cs : List SyntaxElem) (off p : Nat), findBraceOff cs off = some p →
      ∃ ca cb, cs = ca ++ SyntaxElem.token ['}'] :: cb ∧
        (∀ x ∈ ca, isCloseBraceTok x = false) ∧
        p = off + utf8Len (textConcat ca) := by
  intro cs
  induction cs with
  | nil => intro off p h; rw [findBraceOff] at h; exact absurd h (by simp)
  | cons e es ih =>
    intro off p h
    rw [findBraceOff] at h
    by_cases hb : isCloseBraceTok e
    · rw [if_pos hb] at h
      cases h
      exact ⟨[], es, by rw [isCloseBraceTok_eq hb]; rfl, by simp,
        by simp [textConcat, utf8Len]⟩
    · rw [if_neg hb] at h
      obtain ⟨ca, cb, h1, h2, h3⟩ := ih (off + utf8Len (elemText e)) p h
      refine ⟨e :: ca, cb, by rw [h1, List.cons_append], ?_, ?_⟩
      · intro x hx
        rcases List.mem_cons.mp hx with rfl | hx
        · exact eq_false_of_ne_true hb
        · exact h2 x hx
      · rw [h3, textConcat, utf8Len_append]
        omega

/-- Conversely: when the sibling list splits at a first closing-brace
token, the scan returns exactly that token's start offset. -/
theorem findBraceOff_complete :
    ∀ (ca : List SyntaxElem) (cb : List SyntaxElem) (off : Nat),
      (∀ x ∈ ca, isCloseBraceTok x = false) →
      findBraceOff (ca ++ SyntaxElem.token ['}'] :: cb) off =
        some (off + utf8Len (textConcat ca)) := by
  intro ca
  induction ca with
  | nil =>
    intro cb off _
    rw [List.nil_append, findBraceOff]
    rw [if_pos (by rw [isCloseBraceTok]; simp)]
    simp [textConcat, utf8Len]
  | cons e ca ih =>
    intro cb off hno
    rw [List.cons_append, findBraceOff]
    rw [if_neg (by rw [hno e (List.mem_cons_self e ca)]; simp)]
    rw [ih cb _ (fun x hx => hno x (List.mem_cons_of_mem e hx))]
    rw [textConcat, utf8Len_append]
    congr 1
    omega

/-! ### Characterizing the edit -/

/-- Master lemma for the successful path: when the locate step returns the
set `(off, cs)`, the duplicate check is negative, and the brace scan
returns offset `p`, then `p` is the byte length of a prefix of the
original text and the edit returns `Ok` after writing exactly the splice
of the fixed template at `p`. -/
theorem addFlakeInput_added (root : SyntaxElem) (key url : String)
    (off p : Nat) (cs : List SyntaxElem)
    (hfind : findNodeOff inputsPred root 0 = some (off, cs))
    (hdup : hasDup cs key = false)
    (hbrace : findBraceOff cs off = some p) :
    ∃ A B, elemText root = A ++ B ∧ utf8Len A = p ∧
      addFlakeInput (.ok root) key url =
        ⟨.ok, some (A ++ (newInputText key url ++ B))⟩ := by
  obtain ⟨o, n, pre, post, h1, h2, h3⟩ := findNodeOff_decomp inputsPred root 0 _ hfind
  obtain ⟨pre2, post2, h4, h5⟩ := inputsPred_decomp o off n cs h1
  obtain ⟨ca, cb, h6, h7, h8⟩ := findBraceOff_decomp cs off p hbrace
  have hcs : textConcat cs = textConcat ca ++ ('}' :: textConcat cb) := by
    rw [h6, textConcat_append, textConcat]
    rfl
  refine ⟨(pre ++ pre2) ++ textConcat ca, '}' :: (textConcat cb ++ (post2 ++ post)),
    ?_, ?_, ?_⟩
  · rw [h2, h4, hcs]
    simp
  · rw [utf8Len_append, utf8Len_append, h8, h5, h3]
    omega
  · have hAB : elemText root =
        ((pre ++ pre2) ++ textConcat ca) ++ ('}' :: (textConcat cb ++ (post2 ++ post))) := by
      rw [h2, h4, hcs]
      simp
    have hlen : utf8Len ((pre ++ pre2) ++ textConcat ca) = p := by
      rw [utf8Len_append, utf8Len_append, h8, h5, h3]
      omega
    have hins : insertStrAt (elemText root) p (newInputText key url) =
        some (((pre ++ pre2) ++ textConcat ca) ++
          (newInputText key url ++ ('}' :: (textConcat cb ++ (post2 ++ post))))) := by
      rw [hAB, ← hlen]
      exact insertStrAt_boundary _ _ _
    simp only [addFlakeInput, hfind, hdup, hbrace, hins]
    rfl

/-- Inversion of a write: a written result can only come from the
successful path, with the new content the splice at the brace offset. -/
theorem addFlakeInput_written_inv (root : SyntaxElem) (key url : String)
    (nc : List Char)
    (h : (addFlakeInput (.ok root) key url).written = some nc) :
    ∃ off cs p, findNodeOff inputsPred root 0 = some (off, cs) ∧
      hasDup cs key = false ∧ findBraceOff cs off = some p ∧
      insertStrAt (elemText root) p (newInputText key url) = some nc := by
  cases hfind : findNodeOff inputsPred root 0 with
  | none => simp [addFlakeInput, hfind] at h
  | some oc =>
    obtain ⟨off, cs⟩ := oc
    by_cases hdup : hasDup cs key = true
    · simp [addFlakeInput, hfind, hdup] at h
    · have hdup' : hasDup cs key = false := eq_false_of_ne_true hdup
      cases hbrace : findBraceOff cs off with
      | none => simp [addFlakeInput, hfind, hdup', hbrace] at h
      | some p =>
        cases hins : insertStrAt (elemText root) p (newInputText key url) with
        | none => simp [addFlakeInput, hfind, hdup', hbrace, hins] at h
        | some nc' =>
          simp [addFlakeInput, hfind, hdup', hbrace, hins] at h
          refine ⟨off, cs, p, rfl, hdup', hbrace, ?_⟩
          rw [hins, h]

/-- The edit never reaches the panicking branch of `insert_str`: whenever
the insertion is attempted, its offset is the start byte of a token of the
parsed source, hence a prefix length of the content. -/
theorem addFlakeInput_no_panic (input : Except (ErrKind × String) SyntaxElem)
    (key url : String) :
    (addFlakeInput input key url).ret = RustRet.ok ∨
      ∃ k m, (addFlakeInput input key url).ret = RustRet.err k m := by
  cases input with
  | error e => exact Or.inr ⟨e.1, e.2, by simp [addFlakeInput]⟩
  | ok root =>
    cases hfind : findNodeOff inputsPred root 0 with
    | none => exact Or.inr ⟨.notFound, inputsNotFoundMsg, by simp [addFlakeInput, hfind]⟩
    | some oc =>
      obtain ⟨off, cs⟩ := oc
      by_cases hdup : hasDup cs key = true
      · exact Or.inl (by simp [addFlakeInput, hfind, hdup])
      · have hdup' : hasDup cs key = false := eq_false_of_ne_true hdup
        cases hbrace : findBraceOff cs off with
        | none =>
          exact Or.inr ⟨.notFound, closingBraceNotFoundMsg,
            by simp [addFlakeInput, hfind, hdup', hbrace]⟩
        | some p =>
          obtain ⟨A, B, _, _, heq⟩ :=
            addFlakeInput_added root key url off p cs hfind hdup' hbrace
          exact Or.inl (by rw [heq])

/-! ### The preorder-list view of the locator -/

theorem findSome_append {α β : Type} (g : α → Option β) (l1 l2 : List α) :
    (l1 ++ l2).findSome? g =
      match l1.findSome? g with
      | some v => some v
      | none => l2.findSome? g := by
  induction l1 with
  | nil => simp
  | cons a l ih =>
    cases hg : g a with
    | some v => simp [List.findSome?_cons, hg]
    | none => simp [List.findSome?_cons, hg, ih]

mutual

/-- The recursive search is the first hit of the predicate over the
preorder node list. -/
theorem findNodeOff_eq_preorder {T : Type} (f : Nat → SyntaxElem → Option T) :
    ∀ (e : SyntaxElem) (off : Nat),
      findNodeOff f e off = (preorderOff e off).findSome? (fun p => f p.1 p.2)
  | .token t, off => by
    rw [findNodeOff, preorderOff]
    simp
  | .node k cs, off => by
    rw [findNodeOff, preorderOff, List.findSome?_cons]
    cases hf : f off (.node k cs) with
    | some v => simp [hf]
    | none => simp [hf, findNodeOffList_eq_preorder f cs off]

theorem findNodeOffList_eq_preorder {T : Type} (f : Nat → SyntaxElem → Option T) :
    ∀ (es : List SyntaxElem) (off : Nat),
      findNodeOffList f es off = (preorderOffList es off).findSome? (fun p => f p.1 p.2)
  | [], off => by
    rw [findNodeOffList, preorderOffList]
    simp
  | e :: es, off => by
    rw [findNodeOffList, preorderOffList, findSome_append]
    rw [← findNodeOff_eq_preorder f e off,
      ← findNodeOffList_eq_preorder f es (off + utf8Len (elemText e))]

end

/-- First-hit decomposition of `findSome?`: everything strictly before the
returned element maps to `none`. -/
theorem findSome_first {α β : Type} (g : α → Option β) :
    ∀ (l : List α) (v : β), l.findSome? g = some v →
      ∃ l1 x l2, l = l1 ++ x :: l2 ∧ g x = some v ∧ ∀ y ∈ l1, g y = none := by
  intro l
  induction l with
  | nil => intro v h; simp at h
  | cons a l ih =>
    intro v h
    rw [List.findSome?_cons] at h
    cases hg : g a with
    | some w =>
      rw [hg] at h
      cases h
      exact ⟨[], a, l, rfl, hg, by simp⟩
    | none =>
      rw [hg] at h
      obtain ⟨l1, x, l2, h1, h2, h3⟩ := ih v h
      refine ⟨a :: l1, x, l2, by rw [h1, List.cons_append], h2, ?_⟩
      intro y hy
      rcases List.mem_cons.mp hy with rfl | hy
      · exact hg
      · exact h3 y hy

mutual

/-- Every node emitted by the preorder walk of `e` starting at `off` has
an offset between `off` and `off` plus the byte length of `e`. -/
theorem preorderOff_bounds :
    ∀ (e : SyntaxElem) (off : Nat) (q : Nat × SyntaxElem),
      q ∈ preorderOff e off → off ≤ q.1 ∧ q.1 ≤ off + utf8Len (elemText e)
  | .token t, off, q, h => by
    rw [preorderOff] at h
    exact absurd h (by simp)
  | .node k cs, off, q, h => by
    rw [preorderOff] at h
    rcases List.mem_cons.mp h with rfl | h
    · exact ⟨Nat.le_refl _, Nat.le_add_right _ _⟩
    · obtain ⟨ha, hb⟩ := preorderOffList_bounds cs off q h
      exact ⟨ha, by rw [elemText_node]; exact hb⟩

theorem preorderOffList_bounds :
    ∀ (es : List SyntaxElem) (off : Nat) (q : Nat × SyntaxElem),
      q ∈ preorderOffList es off → off ≤ q.1 ∧ q.1 ≤ off + utf8Len (textConcat es)
  | [], off, q, h => by
    rw [preorderOffList] at h
    exact absurd h (by simp)
  | e :: es, off, q, h => by
    rw [preorderOffList] at h
    rcases List.mem_append.mp h with h | h
    · obtain ⟨ha, hb⟩ := preorderOff_bounds e off q h
      refine ⟨ha, ?_⟩
      rw [textConcat, utf8Len_append]
      omega
    · obtain ⟨ha, hb⟩ := preorderOffList_bounds es (off + utf8Len (elemText e)) q h
      refine ⟨by omega, ?_⟩
      rw [textConcat, utf8Len_append]
      omega

end

mutual

/-- Offsets are non-decreasing along the preorder node list: preorder is
document order, so an earlier node never starts later in the source. -/
theorem preorderOff_pairwise :
    ∀ (e : SyntaxElem) (off : Nat),
      (preorderOff e off).Pairwise (fun a b => a.1 ≤ b.1)
  | .token t, off => by
    rw [preorderOff]
    exact List.Pairwise.nil
  | .node k cs, off => by
    rw [preorderOff]
    refine List.pairwise_cons.mpr ⟨?_, preorderOffList_pairwise cs off⟩
    intro q hq
    exact (preorderOffList_bounds cs off q hq).1

theorem preorderOffList_pairwise :
    ∀ (es : List SyntaxElem) (off : Nat),
      (preorderOffList es off).Pairwise (fun a b => a.1 ≤ b.1)
  | [], off => by
    rw [preorderOffList]
    exact List.Pairwise.nil
  | e :: es, off => by
    rw [preorderOffList]
    refine List.pairwise_append.mpr
      ⟨preorderOff_pairwise e off, preorderOffList_pairwise es _, ?_⟩
    intro a ha b hb
    have h1 := (preorderOff_bounds e off a ha).2
    have h2 := (preorderOffList_bounds es (off + utf8Len (elemText e)) b hb).1
    omega

end

/-! ### The handle_add loop -/

/-- Every requested input yields exactly one per-item report. -/
theorem handleAddInputs_length (reparse : List Char → SyntaxElem) :
    ∀ (urls : List String) (w : Except (ErrKind × String) SyntaxElem),
      ((handleAddInputs reparse urls w).1).length = urls.length := by
  intro urls
  induction urls with
  | nil => intro w; simp [handleAddInputs]
  | cons url us ih =>
    intro w
    rcases addFlakeInput_no_panic w (parseFlakeInput url).1 (parseFlakeInput url).2 with
      hok | ⟨k, m, herr⟩
    · simp only [handleAddInputs, hok]
      simp [ih]
    · simp only [handleAddInputs, herr]
      simp [ih]

/-- Processing a batch is processing the first part, then the rest from
the resulting state: an early failure never aborts the remaining edits. -/
theorem handleAddInputs_append (reparse : List Char → SyntaxElem) :
    ∀ (l1 l2 : List String) (w : Except (ErrKind × String) SyntaxElem),
      handleAddInputs reparse (l1 ++ l2) w =
        ((handleAddInputs reparse l1 w).1 ++
          (handleAddInputs reparse l2 (handleAddInputs reparse l1 w).2).1,
         (handleAddInputs reparse l2 (handleAddInputs reparse l1 w).2).2) := by
  intro l1
  induction l1 with
  | nil =>
    intro l2 w
    simp [handleAddInputs]
  | cons url us ih =>
    intro l2 w
    rcases addFlakeInput_no_panic w (parseFlakeInput url).1 (parseFlakeInput url).2 with
      hok | ⟨k, m, herr⟩
    · simp only [List.cons_append, handleAddInputs, hok]
      simp [ih]
    · simp only [List.cons_append, handleAddInputs, herr]
      simp [ih]

/-! ### Claim theorems -/

/-- C2.  Losslessness of the splice: whenever the edit writes, the new
content is original prefix, inserted template, original suffix — the
rewritten output equals the pure splice of the template at the planned
byte offset, and every original byte is unmodified and contiguous on its
side of the inserted span. -/
theorem c2_splice_lossless (root : SyntaxElem) (key url : String) (nc : List Char)
    (h : (addFlakeInput (.ok root) key url).written = some nc) :
    ∃ pre post, elemText root = pre ++ post ∧
      nc = pre ++ (newInputText key url ++ post) ∧
      insertStrAt (elemText root) (utf8Len pre) (newInputText key url) = some nc := by
  obtain ⟨off, cs, p, hfind, hdup, hbrace, hins⟩ :=
    addFlakeInput_written_inv root key url nc h
  obtain ⟨A, B, hAB, hlen, heq⟩ :=
    addFlakeInput_added root key url off p cs hfind hdup hbrace
  have hw : (addFlakeInput (.ok root) key url).written =
      some (A ++ (newInputText key url ++ B)) := by rw [heq]
  rw [h] at hw
  injection hw with hnc
  refine ⟨A, B, hAB, hnc, ?_⟩
  rw [hAB, insertStrAt_boundary, hnc]

/-- C3.  The anchor is the first direct child token whose text is the
closing brace, the insertion offset is that token's start byte, and the
new entry is appended after every child that precedes the brace: sibling
entries keep their order and position, and the inserted text lands
immediately before the closing brace. -/
theorem c3_insert_before_first_close_brace (root : SyntaxElem) (key url : String)
    (off : Nat) (csa cb : List SyntaxElem)
    (hfind : findNodeOff inputsPred root 0 =
      some (off, csa ++ SyntaxElem.token ['}'] :: cb))
    (hnb : ∀ x ∈ csa, isCloseBraceTok x = false)
    (hdup : hasDup (csa ++ SyntaxElem.token ['}'] :: cb) key = false) :
    ∃ pre post,
      elemText root = (pre ++ textConcat csa) ++ ('}' :: (textConcat cb ++ post)) ∧
      utf8Len (pre ++ textConcat csa) = off + utf8Len (textConcat csa) ∧
      addFlakeInput (.ok root) key url =
        ⟨.ok, some ((pre ++ textConcat csa) ++
          (newInputText key url ++ ('}' :: (textConcat cb ++ post))))⟩ := by
  have hbrace := findBraceOff_complete csa cb off hnb
  obtain ⟨o, n, pre0, post0, h1, h2, h3⟩ := findNodeOff_decomp inputsPred root 0 _ hfind
  obtain ⟨pre2, post2, h4, h5⟩ := inputsPred_decomp o off n _ h1
  have hcs : textConcat (csa ++ SyntaxElem.token ['}'] :: cb) =
      textConcat csa ++ ('}' :: textConcat cb) := by
    rw [textConcat_append, textConcat]
    rfl
  have hroot : elemText root =
      ((pre0 ++ pre2) ++ textConcat csa) ++
        ('}' :: (textConcat cb ++ (post2 ++ post0))) := by
    rw [h2, h4, hcs]
    simp
  have hlen : utf8Len ((pre0 ++ pre2) ++ textConcat csa) =
      off + utf8Len (textConcat csa) := by
    rw [utf8Len_append, utf8Len_append, h5, h3]
    omega
  have hins : insertStrAt (elemText root) (off + utf8Len (textConcat csa))
      (newInputText key url) =
      some (((pre0 ++ pre2) ++ textConcat csa) ++
        (newInputText key url ++ ('}' :: (textConcat cb ++ (post2 ++ post0))))) := by
    rw [hroot, ← hlen]
    exact insertStrAt_boundary _ _ _
  refine ⟨pre0 ++ pre2, post2 ++ post0, hroot, hlen, ?_⟩
  simp only [addFlakeInput, hfind, hdup, hbrace, hins]
  rfl

/-- C4.  Duplicate detection: the check fires exactly when some *direct*
child of the located set is an `AttrpathValue` binding whose attrpath
text, whitespace-trimmed, is string-equal to the requested name — nothing
is scanned recursively, and the entry's value plays no role. -/
theorem c4_duplicate_iff (cs : List SyntaxElem) (key : String) :
    hasDup cs key = true ↔
      ∃ acs, SyntaxElem.node NodeKind.attrpathValue acs ∈ cs ∧
        ∃ p, attrpathChild acs = some p ∧ trimChars (elemText p) = key.data := by
  rw [hasDup, List.any_eq_true]
  constructor
  · rintro ⟨e, he, hdup⟩
    have hmem := (List.mem_filter.mp he).1
    cases e with
    | token t => simp [entryIsDup] at hdup
    | node k acs =>
      cases k with
      | attrpathValue =>
        cases hap : attrpathChild acs with
        | none => simp [entryIsDup, hap] at hdup
        | some p =>
          simp only [entryIsDup, hap] at hdup
          exact ⟨acs, hmem, p, hap, beq_iff_eq.mp hdup⟩
      | attrSet => simp [entryIsDup] at hdup
      | attrpath => simp [entryIsDup] at hdup
      | inheritE => simp [entryIsDup] at hdup
      | expr tag => simp [entryIsDup] at hdup
      | other tag => simp [entryIsDup] at hdup
  · rintro ⟨acs, hmem, p, hap, htrim⟩
    refine ⟨.node .attrpathValue acs, List.mem_filter.mpr ⟨hmem, by rw [isEntryNode]⟩, ?_⟩
    simp [entryIsDup, hap, htrim]

/-- C8.  Per-item failure independence of the `handle_add` input loop:
the batch is processed compositionally — the reports of `l1 ++ l2` are
the reports of `l1` followed by the reports of `l2` run from the state
`l1` left behind, so no per-item failure aborts the rest — and every
requested input gets exactly one report. -/
theorem c8_per_item_independence (reparse : List Char → SyntaxElem)
    (l1 l2 : List String) (w : Except (ErrKind × String) SyntaxElem) :
    handleAddInputs reparse (l1 ++ l2) w =
      ((handleAddInputs reparse l1 w).1 ++
        (handleAddInputs reparse l2 (handleAddInputs reparse l1 w).2).1,
       (handleAddInputs reparse l2 (handleAddInputs reparse l1 w).2).2) ∧
    ((handleAddInputs reparse l1 w).1).length = l1.length :=
  ⟨handleAddInputs_append reparse l1 l2 w, handleAddInputs_length reparse l1 w⟩

/-- C9.  Atomicity on failure: unless the call returns `Ok`, no write
happens — every error path (including a propagated read error) leaves the
flake file's contents unchanged, because the write is the final step. -/
theorem c9_no_write_on_error (input : Except (ErrKind × String) SyntaxElem)
    (key url : String) :
    (addFlakeInput input key url).ret = RustRet.ok ∨
      (addFlakeInput input key url).written = none := by
  cases input with
  | error e => exact Or.inr (by simp [addFlakeInput])
  | ok root =>
    cases hfind : findNodeOff inputsPred root 0 with
    | none => exact Or.inr (by simp [addFlakeInput, hfind])
    | some oc =>
      obtain ⟨off, cs⟩ := oc
      by_cases hdup : hasDup cs key = true
      · exact Or.inl (by simp [addFlakeInput, hfind, hdup])
      · have hdup' : hasDup cs key = false := eq_false_of_ne_true hdup
        cases hbrace : findBraceOff cs off with
        | none => exact Or.inr (by simp [addFlakeInput, hfind, hdup', hbrace])
        | some p =>
          cases hins : insertStrAt (elemText root) p (newInputText key url) with
          | none => exact Or.inr (by simp [addFlakeInput, hfind, hdup', hbrace, hins])
          | some nc => exact Or.inl (by simp [addFlakeInput, hfind, hdup', hbrace, hins])

/-- C10.  Splice totality: a successfully planned offset is the start
byte of a token of the parsed source, hence the byte length of a prefix
of the content — at most the content length and on a UTF-8 character
boundary — so the string insertion there is well-defined and never
panics. -/
theorem c10_splice_total (root : SyntaxElem) (key url : String) (off p : Nat)
    (cs : List SyntaxElem)
    (hfind : findNodeOff inputsPred root 0 = some (off, cs))
    (hbrace : findBraceOff cs off = some p) :
    ∃ pre post, elemText root = pre ++ post ∧ utf8Len pre = p ∧
      insertStrAt (elemText root) p (newInputText key url) =
        some (pre ++ (newInputText key url ++ post)) := by
  obtain ⟨o, n, pre0, post0, h1, h2, h3⟩ := findNodeOff_decomp inputsPred root 0 _ hfind
  obtain ⟨pre2, post2, h4, h5⟩ := inputsPred_decomp o off n _ h1
  obtain ⟨ca, cb, h6, h7, h8⟩ := findBraceOff_decomp cs off p hbrace
  have hcs : textConcat cs = textConcat ca ++ ('}' :: textConcat cb) := by
    rw [h6, textConcat_append, textConcat]
    rfl
  have hroot : elemText root =
      ((pre0 ++ pre2) ++ textConcat ca) ++
        ('}' :: (textConcat cb ++ (post2 ++ post0))) := by
    rw [h2, h4, hcs]
    simp
  have hlen : utf8Len ((pre0 ++ pre2) ++ textConcat ca) = p := by
    rw [utf8Len_append, utf8Len_append, h8, h5, h3]
    omega
  refine ⟨(pre0 ++ pre2) ++ textConcat ca,
    '}' :: (textConcat cb ++ (post2 ++ post0)), hroot, hlen, ?_⟩
  rw [hroot, ← hlen]
  exact insertStrAt_boundary _ _ _

/-- C5.  Locator traversal order: the recursive search equals the first
hit of the predicate over the preorder node list (parent before children,
children left to right); offsets are non-decreasing along that list, so
when several nodes match, the returned value comes from the first match,
every node before it was rejected, and no matching node anywhere starts
earlier in the source than the chosen one. -/
theorem c5_find_node_preorder {T : Type} (f : Nat → SyntaxElem → Option T)
    (e : SyntaxElem) :
    findNodeOff f e 0 = (preorderOff e 0).findSome? (fun q => f q.1 q.2) ∧
    (preorderOff e 0).Pairwise (fun a b => a.1 ≤ b.1) ∧
    ∀ v, findNodeOff f e 0 = some v →
      ∃ l1 x l2, preorderOff e 0 = l1 ++ x :: l2 ∧ f x.1 x.2 = some v ∧
        (∀ y ∈ l1, f y.1 y.2 = none) ∧
        ∀ y ∈ preorderOff e 0, (f y.1 y.2).isSome = true → x.1 ≤ y.1 := by
  refine ⟨findNodeOff_eq_preorder f e 0, preorderOff_pairwise e 0, ?_⟩
  intro v h
  rw [findNodeOff_eq_preorder] at h
  obtain ⟨l1, x, l2, h1, h2, h3⟩ := findSome_first _ _ v h
  refine ⟨l1, x, l2, h1, h2, h3, ?_⟩
  intro y hy hsome
  rw [h1] at hy
  rcases List.mem_append.mp hy with hy1 | hy2
  · rw [h3 y hy1] at hsome
    simp at hsome
  · rcases List.mem_cons.mp hy2 with rfl | hy2
    · exact Nat.le_refl _
    · have hp := preorderOff_pairwise e 0
      rw [h1] at hp
      have hx := (List.pairwise_append.mp hp).2.1
      exact (List.pairwise_cons.mp hx).1 y hy2

/-- C7 (amended).  The callable outcomes of the edit: `Ok` with a write
(input added), `Ok` without a write (name already present — signalled to
the caller identically to the added case), `Err NotFound` with the
inputs-set message, `Err NotFound` with the closing-brace message (same
error kind, distinguishable from each other only by message text), or the
propagated read error; the two structural-failure messages differ, and no
failure path writes. -/
theorem c7_outcome_shapes (input : Except (ErrKind × String) SyntaxElem)
    (key url : String) :
    ((inputsNotFoundMsg == closingBraceNotFoundMsg) = false) ∧
    (((addFlakeInput input key url).ret = RustRet.ok ∧
        (∃ nc, (addFlakeInput input key url).written = some nc)) ∨
      ((addFlakeInput input key url).ret = RustRet.ok ∧
        (addFlakeInput input key url).written = none) ∨
      (addFlakeInput input key url =
        ⟨RustRet.err ErrKind.notFound inputsNotFoundMsg, none⟩) ∨
      (addFlakeInput input key url =
        ⟨RustRet.err ErrKind.notFound closingBraceNotFoundMsg, none⟩) ∨
      (∃ k m, input = Except.error (k, m) ∧
        addFlakeInput input key url = ⟨RustRet.err k m, none⟩)) := by
  refine ⟨by decide, ?_⟩
  cases input with
  | error e =>
    exact Or.inr (Or.inr (Or.inr (Or.inr ⟨e.1, e.2, by rw [Prod.mk.eta],
      by simp [addFlakeInput]⟩)))
  | ok root =>
    cases hfind : findNodeOff inputsPred root 0 with
    | none => exact Or.inr (Or.inr (Or.inl (by simp [addFlakeInput, hfind])))
    | some oc =>
      obtain ⟨off, cs⟩ := oc
      by_cases hdup : hasDup cs key = true
      · exact Or.inr (Or.inl ⟨by simp [addFlakeInput, hfind, hdup],
          by simp [addFlakeInput, hfind, hdup]⟩)
      · have hdup' : hasDup cs key = false := eq_false_of_ne_true hdup
        cases hbrace : findBraceOff cs off with
        | none =>
          exact Or.inr (Or.inr (Or.inr (Or.inl
            (by simp [addFlakeInput, hfind, hdup', hbrace]))))
        | some p =>
          obtain ⟨A, B, _, _, heq⟩ :=
            addFlakeInput_added root key url off p cs hfind hdup' hbrace
          exact Or.inl ⟨by rw [heq], ⟨_, by rw [heq]⟩⟩

/-- C7 (counterexample).  The outcomes are *not* all distinguishable by
the caller: a successful add and a duplicate no-op both return plain
`Ok` — the caller of `add_flake_input` sees the identical value for two
different outcomes (the no-op is only ever signalled on stdout) — and the
two structural failures share the error kind `NotFound`. -/
theorem c7_counterexample :
    (addFlakeInput (.ok tDup) "foo" "u").ret = RustRet.ok ∧
    (addFlakeInput (.ok tDup) "foo" "u").written = none ∧
    (addFlakeInput (.ok t0) fuKey fuUrl).ret = RustRet.ok ∧
    (addFlakeInput (.ok t0) fuKey fuUrl).written.isSome = true ∧
    (addFlakeInput (.ok tNoInputs) "a" "b").ret =
      RustRet.err ErrKind.notFound inputsNotFoundMsg ∧
    (addFlakeInput (.ok tNoBrace) "a" "b").ret =
      RustRet.err ErrKind.notFound closingBraceNotFoundMsg :=
  ⟨by decide, by decide, by decide, by decide, by decide, by decide⟩

/-- C6 (amended).  The inserted text is the fixed template: a newline,
four spaces of indentation, the attribute name, `.url = "<value>";`, a
newline, and two spaces — independent of whatever indentation the set or
its closing brace originally had. -/
theorem c6_amended_fixed_template (root : SyntaxElem) (key url : String)
    (nc : List Char)
    (h : (addFlakeInput (.ok root) key url).written = some nc) :
    ∃ pre post, elemText root = pre ++ post ∧
      nc = pre ++ (("\n    ".data ++ key.data ++ ".url = \"".data ++ url.data
        ++ "\";\n  ".data) ++ post) := by
  obtain ⟨off, cs, p, hfind, hdup, hbrace, hins⟩ :=
    addFlakeInput_written_inv root key url nc h
  obtain ⟨A, B, hAB, hlen, heq⟩ :=
    addFlakeInput_added root key url off p cs hfind hdup hbrace
  have hw : (addFlakeInput (.ok root) key url).written =
      some (A ++ (newInputText key url ++ B)) := by rw [heq]
  rw [h] at hw
  injection hw with hnc
  exact ⟨A, B, hAB, hnc⟩

/-- C6 (counterexample).  The spliced text is not, as claimed, terminated
by the original indentation of the closing brace: on a set whose brace is
indented with a tab, the code still inserts its fixed two-space tail, so
the written file differs from the claim's predicted output. -/
theorem c6_counterexample :
    (addFlakeInput (.ok tTab) "foo" "u").written =
      some ("inputs=\x7b\n\t".data ++ (newInputText "foo" "u" ++ "\x7d;".data)) ∧
    (("inputs=\x7b\n\t".data ++ (newInputText "foo" "u" ++ "\x7d;".data)) ==
      ("inputs=\x7b\n\t".data ++ (specInsertText "foo" "u" "\t" ++ "\x7d;".data)))
      = false :=
  ⟨by decide, by decide⟩

/-- C1 (failing input).  Idempotence fails on the scenario of spec
section 8: starting from the scenario source, the first edit writes the
expected file (`t1` is its parse, tied to the written bytes below), but
the second identical edit is *not* detected as a duplicate — the scan
compares the full attrpath `flake-utils.url` against the bare key
`flake-utils` — so it writes again, and the on-disk bytes after the
second call differ from those after the first. -/
theorem c1_idempotence_fails :
    elemText t0 = "\x7b inputs = \x7b nixpkgs.url = \"x\"; \x7d; \x7d".data ∧
    (addFlakeInput (.ok t0) fuKey fuUrl).written = some (elemText t1) ∧
    hasDup innerT1 fuKey = false ∧
    (addFlakeInput (.ok t1) fuKey fuUrl).ret = RustRet.ok ∧
    (addFlakeInput (.ok t1) fuKey fuUrl).written.isSome = true ∧
    ((addFlakeInput (.ok t1) fuKey fuUrl).written == some (elemText t1)) = false :=
  ⟨by decide, by decide, by decide, by decide, by decide, by decide⟩

/-! ### Witnesses -/

/-- Witness for C2 on the scenario input. -/
theorem c2_witness :
    ∃ pre post, elemText t0 = pre ++ post ∧
      elemText t1 = pre ++ (newInputText fuKey fuUrl ++ post) ∧
      insertStrAt (elemText t0) (utf8Len pre) (newInputText fuKey fuUrl) =
        some (elemText t1) :=
  c2_splice_lossless t0 fuKey fuUrl (elemText t1) (by decide)

/-- Witness for C3 on the scenario input. -/
theorem c3_witness :
    ∃ pre post,
      elemText t0 = (pre ++ textConcat csaT0) ++ ('}' :: (textConcat [] ++ post)) ∧
      utf8Len (pre ++ textConcat csaT0) = 11 + utf8Len (textConcat csaT0) ∧
      addFlakeInput (.ok t0) fuKey fuUrl =
        ⟨.ok, some ((pre ++ textConcat csaT0) ++
          (newInputText fuKey fuUrl ++ ('}' :: (textConcat [] ++ post))))⟩ :=
  c3_insert_before_first_close_brace t0 fuKey fuUrl 11 csaT0 []
    (by rfl) (by decide) (by decide)

/-- Witness for C5: the locator's first preorder hit on the scenario
input. -/
theorem c5_witness :
    ∃ l1 x l2, preorderOff t0 0 = l1 ++ x :: l2 ∧
      inputsPred x.1 x.2 = some (11, innerT0) ∧
      (∀ y ∈ l1, inputsPred y.1 y.2 = none) ∧
      ∀ y ∈ preorderOff t0 0, (inputsPred y.1 y.2).isSome = true → x.1 ≤ y.1 :=
  (c5_find_node_preorder inputsPred t0).2.2 (11, innerT0) (by rfl)

/-- Witness for C6 (amended) on the scenario input. -/
theorem c6_amended_witness :
    ∃ pre post, elemText t0 = pre ++ post ∧
      elemText t1 = pre ++ (("\n    ".data ++ fuKey.data ++ ".url = \"".data
        ++ fuUrl.data ++ "\";\n  ".data) ++ post) :=
  c6_amended_fixed_template t0 fuKey fuUrl (elemText t1) (by decide)

/-- Witness for C10 on the scenario input: the planned offset 32 is a
prefix byte length of the scenario content. -/
theorem c10_witness :
    ∃ pre post, elemText t0 = pre ++ post ∧ utf8Len pre = 32 ∧
      insertStrAt (elemText t0) 32 (newInputText fuKey fuUrl) =
        some (pre ++ (newInputText fuKey fuUrl ++ post)) :=
  c10_splice_total t0 fuKey fuUrl 11 32 innerT0 (by rfl) (by decide)

end NixShellGen
